import Mathlib

/-!
Shallow embedding of the stock-analysis pipeline in src/main.py.

The pipeline is Extractor (extract_data) → Transformer (transform_data) →
Feature Engine (feature_engineer) → orchestrator (main).  Machine floats are
modelled as exact rationals (ℚ); the rolling standard deviation additionally
needs a square root and therefore lands in ℝ.  Pandas NaN cells are modelled
as Option.none.  Each definition mirrors one construct of the source file.
-/

/-- Calendar date, the parse target of the date-string index handled by
pd.to_datetime in transform_data. -/
structure Date where
  year : ℕ
  month : ℕ
  day : ℕ
deriving DecidableEq, Repr

/-- Boolean lexicographic order on dates, as pandas Timestamps compare. -/
def dateLe (a b : Date) : Bool :=
  if a.year = b.year then
    if a.month = b.month then decide (a.day ≤ b.day)
    else decide (a.month < b.month)
  else decide (a.year < b.year)

/-- Boolean lexicographic order on char lists by code point, the order in
which Python compares the symbol strings in sort_values. -/
def strLeCore : List Char → List Char → Bool
  | [], _ => true
  | _ :: _, [] => false
  | a :: as, b :: bs =>
    if a.toNat = b.toNat then strLeCore as bs
    else decide (a.toNat < b.toNat)

/-- Order on symbol strings used by the Feature Engine's sort. -/
def strLe (a b : String) : Bool :=
  strLeCore a.toList b.toList

/-- Decimal digit test on a character. -/
def isDigit (c : Char) : Bool :=
  decide (48 ≤ c.toNat) && decide (c.toNat ≤ 57)

/-- Numeric value of a digit character. -/
def digitVal (c : Char) : ℕ := c.toNat - 48

/-- Accumulating digit-string parser; fails on any non-digit character. -/
def natOfDigits (acc : ℕ) : List Char → Option ℕ
  | [] => some acc
  | c :: cs => if isDigit c then natOfDigits (acc * 10 + digitVal c) cs else none

/-- Parse of a non-empty all-digit character list. -/
def parseNat (cs : List Char) : Option ℕ :=
  if cs = [] then none else natOfDigits 0 cs

/-- Parse of a date string of shape YYYY-MM-DD, mirroring pd.to_datetime,
which raises on an unparseable index entry (modelled as none here and as an
Except.error in transform_data). -/
def parseDate (s : String) : Option Date :=
  match s.toList.splitOn '-' with
  | [ys, ms, ds] =>
    match parseNat ys, parseNat ms, parseNat ds with
    | some y, some m, some d =>
      if 1 ≤ m ∧ m ≤ 12 ∧ 1 ≤ d ∧ d ≤ 31 then some ⟨y, m, d⟩ else none
    | _, _, _ => none
  | _ => none

/-- Parse of an unsigned decimal literal, digits with an optional single
decimal point, returned as a mantissa and a count of fraction digits. -/
def parseUnsignedParts (cs : List Char) : Option (ℕ × ℕ) :=
  match cs.splitOn '.' with
  | [w] => (parseNat w).map (fun n => (n, 0))
  | [w, f] =>
    if w = [] ∧ f = [] then none
    else
      match (if w = [] then some 0 else parseNat w),
            (if f = [] then some 0 else parseNat f) with
      | some wv, some fv => some (wv * 10 ^ f.length + fv, f.length)
      | _, _ => none
  | _ => none

/-- Signed decimal literal parse, as a signed mantissa and fraction-digit
count. -/
def parseDecimalParts (s : String) : Option (ℤ × ℕ) :=
  match s.toList with
  | [] => none
  | c :: rest =>
    if c = '-' then (parseUnsignedParts rest).map (fun p => (-(p.1 : ℤ), p.2))
    else if c = '+' then (parseUnsignedParts rest).map (fun p => ((p.1 : ℤ), p.2))
    else (parseUnsignedParts (c :: rest)).map (fun p => ((p.1 : ℤ), p.2))

/-- Coercive numeric parse, mirroring pd.to_numeric with errors set to
coerce: an unparseable string becomes none (NaN) instead of raising. -/
def parseDecimal (s : String) : Option ℚ :=
  (parseDecimalParts s).map (fun p => (p.1 : ℚ) / (10 : ℚ) ^ p.2)

/-- Raw OHLCV fields of one day of one symbol, as decimal strings, the values
of the date-keyed JSON object under the Time Series (Daily) key. -/
structure RawFields where
  «open» : String
  high : String
  low : String
  close : String
  volume : String
deriving DecidableEq, Repr

/-- Outcome of one Alpha Vantage call in extract_data, covering the branches
of its try block: a body holding the Time Series (Daily) key, a body missing
it (quota or error note, line 27), a requests exception (network error or
non-2xx after raise_for_status), or any other exception (malformed body). -/
inductive ApiResult where
  | ok (series : List (String × RawFields))
  | note (msg : String)
  | httpError (msg : String)
  | exnOther (msg : String)

/-- Successful-call test: exactly the branch that appends data and sleeps. -/
def ApiResult.isOk : ApiResult → Bool
  | .ok _ => true
  | _ => false

/-- One row of the raw concatenated frame built by extract_data: the date
index entry, the five string fields, and the symbol tag added on line 33. -/
structure RawRow where
  date : String
  «open» : String
  high : String
  low : String
  close : String
  volume : String
  symbol : String
deriving DecidableEq, Repr

/-- Rows contributed by one symbol: its series tagged with the symbol on
success, nothing on any failure branch (continue or a caught exception). -/
def rawRowsOf (symbol : String) : ApiResult → List RawRow
  | .ok series => series.map (fun p =>
      ⟨p.1, p.2.«open», p.2.high, p.2.low, p.2.close, p.2.volume, symbol⟩)
  | _ => []

/-- Embedding of extract_data: one call per symbol in order, failed symbols
skipped, per-symbol frames concatenated (pd.concat of all_data; the empty
DataFrame when no symbol succeeded). -/
def extract_data (symbols : List String) (api : String → ApiResult) : List RawRow :=
  symbols.flatMap (fun s => rawRowsOf s (api s))

/-- Timing model of the extract_data loop.  Each symbol's request is issued,
takes its latency, and only the successful branch then executes the
time.sleep of 12 units on line 35; the note branch hits continue on line 29
and the exception branches fall through, both without sleeping.  Returns the
issue time of each call. -/
def extractSchedule (api : String → ApiResult) (lat : String → ℚ) :
    List String → ℚ → List (ℚ × String)
  | [], _ => []
  | s :: rest, t =>
    (t, s) :: extractSchedule api lat rest (t + lat s + (if (api s).isOk then 12 else 0))

/-- Normalized record after transform_data: parsed date, numeric OHLCV
fields that are none exactly where the coercive parse failed. -/
structure PriceRow where
  symbol : String
  date : Date
  «open» : Option ℚ
  high : Option ℚ
  low : Option ℚ
  close : Option ℚ
  volume : Option ℚ
deriving DecidableEq, Repr

/-- Per-row body of transform_data: pd.to_datetime on the index entry raises
on failure (Except.error), each numeric field goes through the coercive
parse and the symbol tag is kept. -/
def transformRow (r : RawRow) : Except String PriceRow :=
  match parseDate r.date with
  | none => .error r.date
  | some d =>
    .ok ⟨r.symbol, d, parseDecimal r.«open», parseDecimal r.high, parseDecimal r.low,
      parseDecimal r.close, parseDecimal r.volume⟩

/-- Row-wise traversal of the frame; the first unparseable date makes the
whole transform raise, as pd.to_datetime does on the whole index at once. -/
def transformList : List RawRow → Except String (List PriceRow)
  | [] => .ok []
  | r :: rest =>
    match transformRow r, transformList rest with
    | .ok p, .ok ps => .ok (p :: ps)
    | .error e, _ => .error e
    | .ok _, .error e => .error e

/-- Embedding of transform_data, including the early return of the untouched
empty frame on line 50. -/
def transform_data (rows : List RawRow) : Except String (List PriceRow) :=
  if rows = [] then .ok [] else transformList rows

/-- Order on price rows by symbol then date, the key list of sort_values on
line 76. -/
def rowLe (a b : PriceRow) : Bool :=
  if a.symbol = b.symbol then dateLe a.date b.date else strLe a.symbol b.symbol

/-- Ordered insertion of one element into a list. -/
def insertLe (le : α → α → Bool) (x : α) : List α → List α
  | [] => [x]
  | y :: ys => if le x y then x :: y :: ys else y :: insertLe le x ys

/-- Comparison sort used to model sort_values; on the unique (symbol, date)
keys of the pipeline every correct sort produces the same output. -/
def insertionSort (le : α → α → Bool) : List α → List α
  | [] => []
  | x :: xs => insertLe le x (insertionSort le xs)

/-- The sort on line 76: rows reordered by symbol then date ascending. -/
def sortRows (rows : List PriceRow) : List PriceRow :=
  insertionSort rowLe rows

/-- Collects the values of a window when none of its cells is NaN; a rolling
aggregate with min_periods equal to the window size produces a value exactly
in that case. -/
def allSome : List (Option ℚ) → Option (List ℚ)
  | [] => some []
  | none :: _ => none
  | some x :: rest => (allSome rest).map (fun l => x :: l)

/-- Trailing window of width w ending at position k of a series. -/
def windowAt (l : List (Option ℚ)) (w k : ℕ) : List (Option ℚ) :=
  (l.take (k + 1)).drop (k + 1 - w)

/-- Embedding of Series.rolling(window := w).mean() at position k: none until
the window holds w observations, none when any cell of the window is NaN
(min_periods defaults to the window size and counts non-NaN cells), else the
arithmetic mean of the window. -/
def rollingMean (w : ℕ) (l : List (Option ℚ)) (k : ℕ) : Option ℚ :=
  if k + 1 < w then none
  else (allSome (windowAt l w k)).map (fun vs => vs.sum / (w : ℚ))

/-- Sample variance with one delta degree of freedom, the square of the
pandas default std. -/
def sampleVariance (vs : List ℚ) : ℚ :=
  ((vs.map (fun x => (x - vs.sum / (vs.length : ℚ)) ^ 2)).sum) / ((vs.length : ℚ) - 1)

/-- Embedding of rolling(window := w).var-like aggregation under the same
null rule as rollingMean. -/
def rollingVariance (w : ℕ) (l : List (Option ℚ)) (k : ℕ) : Option ℚ :=
  if k + 1 < w then none
  else (allSome (windowAt l w k)).map sampleVariance

/-- Embedding of rolling(window := w).std(): square root of the sample
variance of the filled window. -/
noncomputable def rollingStd (w : ℕ) (l : List (Option ℚ)) (k : ℕ) : Option ℝ :=
  (rollingVariance w l k).map (fun v => Real.sqrt ((v : ℚ) : ℝ))

/-- Embedding of groupby pct_change at position k of one symbol's close
series: none at the group's first position, the relative change from the
previous close otherwise, none when either close is NaN.  This is the
fill_method := None semantics; legacy pandas forward-fills first, which
coincides on series whose closes are all present. -/
def dailyReturn (closes : List (Option ℚ)) (k : ℕ) : Option ℚ :=
  if k = 0 then none
  else
    match closes.getD k none, closes.getD (k - 1) none with
    | some c, some p => some ((c - p) / p)
    | _, _ => none

/-- Whole daily_return column of one symbol's group, in group order. -/
def returnsOf (closes : List (Option ℚ)) : List (Option ℚ) :=
  (List.range closes.length).map (dailyReturn closes)

/-- Final record of the Dataset: the price fields plus the four feature
columns added on lines 78 to 81, the last of which the source names
volatility. -/
structure FeatureRow where
  symbol : String
  date : Date
  «open» : Option ℚ
  high : Option ℚ
  low : Option ℚ
  close : Option ℚ
  volume : Option ℚ
  daily_return : Option ℚ
  MA50 : Option ℚ
  MA200 : Option ℚ
  volatility : Option ℝ

/-- Feature computation for the row at position k of the group whose close
series is g: the four groupby transforms of lines 78 to 81 evaluated at that
group position, the base fields copied unchanged. -/
noncomputable def mkFeature (g : List (Option ℚ)) (k : ℕ) (r : PriceRow) : FeatureRow :=
  { symbol := r.symbol, date := r.date, «open» := r.«open», high := r.high, low := r.low,
    close := r.close, volume := r.volume,
    daily_return := dailyReturn g k,
    MA50 := rollingMean 50 g k,
    MA200 := rollingMean 200 g k,
    volatility := rollingStd 30 (returnsOf g) k }

/-- Close series of the group of symbol s inside a frame, in frame order,
exactly the series a groupby on the symbol column hands to each transform. -/
def groupCloses (rows : List PriceRow) (s : String) : List (Option ℚ) :=
  (rows.filter (fun r => r.symbol == s)).map (fun r => r.close)

/-- Row-by-row feature pass over the sorted frame: the position of a row
inside its group is the number of earlier rows of the same symbol, which is
how a groupby transform aligns its per-group results back to frame order. -/
noncomputable def featureizeAux (full : List PriceRow) (done : List PriceRow) :
    List PriceRow → List FeatureRow
  | [] => []
  | r :: rest =>
    mkFeature (groupCloses full r.symbol)
        ((done.filter (fun q => q.symbol == r.symbol)).length) r ::
      featureizeAux full (done ++ [r]) rest

/-- Embedding of feature_engineer: the untouched empty frame passes through
(line 71), otherwise rows are sorted by symbol and date and the four feature
columns are computed per group. -/
noncomputable def feature_engineer (rows : List PriceRow) : List FeatureRow :=
  if rows = [] then []
  else featureizeAux (sortRows rows) [] (sortRows rows)

/-- Static symbol configuration of line 11. -/
def SYMBOLS : List String := ["AAPL", "GOOGL", "MSFT", "AMZN"]

/-- Terminal states of one pipeline run of main. -/
inductive RunOutcome where
  | fatalConfigError
  | nothingFetched
  | artifactWritten
  | crashed (msg : String)
deriving DecidableEq, Repr

/-- Observable result of a run: its outcome, the persisted artifact path's
content after the run, and the symbols for which an API call was issued. -/
structure RunResult where
  outcome : RunOutcome
  artifact : Option (List FeatureRow)
  calls : List String

/-- Python falsiness test of line 87: the credential is absent or empty. -/
def apiKeyFalsy : Option String → Bool
  | none => true
  | some k => k == ""

/-- Embedding of main over an arbitrary symbol list: fail fast on a falsy
credential before any call, extract, end quietly on an empty extraction,
otherwise transform, feature-engineer and overwrite the artifact.  A date
the transform cannot parse propagates as an uncaught exception (crashed),
which main does not handle. -/
noncomputable def pipelineRun (symbols : List String) (apiKey : Option String)
    (api : String → ApiResult) (old : Option (List FeatureRow)) : RunResult :=
  if apiKeyFalsy apiKey then ⟨.fatalConfigError, old, []⟩
  else
    let raw := extract_data symbols api
    if raw = [] then ⟨.nothingFetched, old, symbols⟩
    else
      match transform_data raw with
      | .error e => ⟨.crashed e, old, symbols⟩
      | .ok pr => ⟨.artifactWritten, some (feature_engineer pr), symbols⟩

/-- The main entry point runs the pipeline over the static SYMBOLS list. -/
noncomputable def main_run (apiKey : Option String) (api : String → ApiResult)
    (old : Option (List FeatureRow)) : RunResult :=
  pipelineRun SYMBOLS apiKey api old

/-- Rename map of lines 57 to 60. -/
def renameMap : List (String × String) :=
  [("index", "date"), ("1. open", "open"), ("2. high", "high"), ("3. low", "low"),
   ("4. close", "close"), ("5. volume", "volume")]

/-- Column rename of line 61: a column in the map is renamed, others kept. -/
def renameCol (c : String) : String :=
  (renameMap.lookup c).getD c

/-- Columns of the raw concatenated frame handed to transform_data: the five
API field names in frame order plus the symbol tag. -/
def rawDataColumns : List String :=
  ["1. open", "2. high", "3. low", "4. close", "5. volume", "symbol"]

/-- Columns of the frame object passed to transform_data after the call
returns, for a non-empty input: reset_index prepends the index column and
rename maps it through the rename map, both with inplace set, mutating the
caller's frame. -/
def transformArgColumnsAfter (cols : List String) : List String :=
  ("index" :: cols).map renameCol

/-- Columns after transform_data on the raw frame. -/
def transformedColumns : List String :=
  transformArgColumnsAfter rawDataColumns

/-- Names of the four columns appended by feature_engineer, in assignment
order of lines 78 to 81. -/
def featureAddedColumns : List String :=
  ["daily_return", "MA50", "MA200", "volatility"]

/-- Columns of the persisted artifact of a successful run. -/
def featureColumns : List String :=
  transformedColumns ++ featureAddedColumns

/-- Projection of a feature record onto its seven pre-existing fields. -/
def baseOf (r : FeatureRow) : PriceRow :=
  ⟨r.symbol, r.date, r.«open», r.high, r.low, r.close, r.volume⟩

/-- Placeholder price row used as a getD default. -/
def junkPriceRow : PriceRow :=
  ⟨"", ⟨0, 0, 0⟩, none, none, none, none, none⟩

/-- Placeholder feature row used as a getD default. -/
noncomputable def junkFeatureRow : FeatureRow :=
  ⟨"", ⟨0, 0, 0⟩, none, none, none, none, none, none, none, none, none⟩

/-- Feature pass over one symbol's rows starting at group position k, the
per-group view of featureizeAux. -/
noncomputable def groupFeatureFrom (g : List (Option ℚ)) : ℕ → List PriceRow → List FeatureRow
  | _, [] => []
  | k, r :: rest => mkFeature g k r :: groupFeatureFrom g (k + 1) rest

/-- Date-ascending rows of one symbol inside the engineered frame's order. -/
def symbolRows (rows : List PriceRow) (s : String) : List PriceRow :=
  sortRows (rows.filter (fun r => r.symbol == s))

/-- Date-ascending close series of one symbol. -/
def symbolCloses (rows : List PriceRow) (s : String) : List (Option ℚ) :=
  (symbolRows rows s).map (fun r => r.close)

/-- Rows of one symbol in the Dataset produced by the Feature Engine. -/
noncomputable def featureRowsOf (rows : List PriceRow) (s : String) : List FeatureRow :=
  (feature_engineer rows).filter (fun r => r.symbol == s)

/-- Pure per-row view of the transform used to reason about success runs. -/
def transformPure (rows : List RawRow) : List PriceRow :=
  rows.filterMap (fun r => (transformRow r).toOption)

/-- Per-symbol uniqueness of the parsed date keys of one API response, the
dictionary-key property of the JSON object under the time-series key. -/
def apiDatesNodup : ApiResult → Prop
  | .ok series => (series.map (fun q => parseDate q.1)).Nodup
  | _ => True

/-- Spec-side predicate of C4: each api call is issued at least 12 time
units after the previous one, whatever the previous call's outcome. -/
def minGapTwelve (sched : List (ℚ × String)) : Prop :=
  sched.Chain' (fun a b => a.1 + 12 ≤ b.1)

/-- Fixture oracle for the C1 witness: one symbol with one record whose
numeric fields are unparseable, every other symbol a quota note. -/
def c1api : String → ApiResult := fun s =>
  if s = "AAPL" then .ok [("2024-01-02", ⟨"x", "x", "x", "x", "x"⟩)] else .note "limit"

/-- Fixture oracle for the C9 witness: AAPL succeeds with one record, GOOGL
fails with a network error. -/
def c9api : String → ApiResult := fun s =>
  if s = "AAPL" then .ok [("2024-01-02", ⟨"x", "x", "x", "x", "x"⟩)]
  else .httpError "connection reset"

/-- Fixture symbol list for the C5 scenario: four symbols. -/
def c5symbols : List String := ["S1", "S2", "S3", "S4"]

/-- Fixture oracle where every call succeeds with one record. -/
def c5apiOk : String → ApiResult := fun _ =>
  .ok [("2024-01-02", ⟨"x", "x", "x", "x", "x"⟩)]

/-- Fixture oracle identical to the failure-free one except that symbol two
throws a network error. -/
def c5apiFail : String → ApiResult := fun s =>
  if s = "S2" then .httpError "connection reset"
  else .ok [("2024-01-02", ⟨"x", "x", "x", "x", "x"⟩)]

/-- Fixture transformed row of one symbol in the C5 scenario. -/
def c5price (s : String) : PriceRow := ⟨s, ⟨2024, 1, 2⟩, none, none, none, none, none⟩

/-- Fixture for the C2 counterexample: fifty observations of one symbol in
date order whose first close failed its numeric parse. -/
def c2rows : List PriceRow :=
  (List.range 50).map (fun i =>
    ⟨"X", ⟨2000 + i, 1, 1⟩, none, none, none, if i = 0 then none else some 1, none⟩)

/-- Fixture for the C3 scenario: five observations of symbol X listed newest
first (as the API returns them), closes 100, 102, 99, 105, 101 in date
order. -/
def c3rows : List PriceRow :=
  [⟨"X", ⟨2024, 1, 5⟩, none, none, none, some 101, none⟩,
   ⟨"X", ⟨2024, 1, 4⟩, none, none, none, some 105, none⟩,
   ⟨"X", ⟨2024, 1, 3⟩, none, none, none, some 99, none⟩,
   ⟨"X", ⟨2024, 1, 2⟩, none, none, none, some 102, none⟩,
   ⟨"X", ⟨2024, 1, 1⟩, none, none, none, some 100, none⟩]

/-- Characters with equal code points are equal. -/
theorem char_toNat_inj {a b : Char} (h : a.toNat = b.toNat) : a = b := by
  have hv : a.val = b.val := by
    unfold Char.toNat at h
    exact UInt32.toNat.inj h
  exact Char.eq_of_val_eq hv

/-- Totality of the char-list order. -/
theorem strLeCore_total (as bs : List Char) : strLeCore as bs = true ∨ strLeCore bs as = true := by
  induction as generalizing bs with
  | nil => left; rfl
  | cons a as ih =>
    cases bs with
    | nil => right; rfl
    | cons b bs =>
      by_cases h : a.toNat = b.toNat
      · have h' : b.toNat = a.toNat := h.symm
        rcases ih bs with hl | hr
        · left; simp [strLeCore, h, hl]
        · right; simp [strLeCore, h', hr]
      · have h' : ¬ b.toNat = a.toNat := fun e => h e.symm
        rcases Nat.lt_or_ge a.toNat b.toNat with hlt | hge
        · left; simp [strLeCore, h, hlt]
        · right
          have hba : b.toNat < a.toNat := by omega
          simp [strLeCore, h', hba]

/-- Unfolding fact: a strictly smaller head makes the order hold. -/
theorem strLeCore_of_lt {a b : Char} (as bs : List Char) (h : a.toNat < b.toNat) :
    strLeCore (a :: as) (b :: bs) = true := by
  simp [strLeCore, show ¬ a.toNat = b.toNat by omega, h]

/-- Inversion on a cons-cons comparison. -/
theorem strLeCore_cons_inv {a b : Char} {as bs : List Char}
    (h : strLeCore (a :: as) (b :: bs) = true) :
    a.toNat < b.toNat ∨ (a.toNat = b.toNat ∧ strLeCore as bs = true) := by
  by_cases hab : a.toNat = b.toNat
  · right
    refine ⟨hab, ?_⟩
    simpa [strLeCore, hab] using h
  · left
    by_contra hc
    simp [strLeCore, hab, hc] at h

/-- Transitivity of the char-list order. -/
theorem strLeCore_trans (as bs cs : List Char) (h1 : strLeCore as bs = true)
    (h2 : strLeCore bs cs = true) : strLeCore as cs = true := by
  induction as generalizing bs cs with
  | nil => rfl
  | cons a as ih =>
    cases bs with
    | nil => simp [strLeCore] at h1
    | cons b bs =>
      cases cs with
      | nil => simp [strLeCore] at h2
      | cons c cs =>
        rcases strLeCore_cons_inv h1 with hab | ⟨hab, h1'⟩ <;>
          rcases strLeCore_cons_inv h2 with hbc | ⟨hbc, h2'⟩
        · exact strLeCore_of_lt as cs (by omega)
        · exact strLeCore_of_lt as cs (by omega)
        · exact strLeCore_of_lt as cs (by omega)
        · have hac : a.toNat = c.toNat := hab.trans hbc
          simp [strLeCore, hac, ih bs cs h1' h2']

/-- Antisymmetry of the char-list order. -/
theorem strLeCore_antisymm (as bs : List Char) (h1 : strLeCore as bs = true)
    (h2 : strLeCore bs as = true) : as = bs := by
  induction as generalizing bs with
  | nil =>
    cases bs with
    | nil => rfl
    | cons b bs => simp [strLeCore] at h2
  | cons a as ih =>
    cases bs with
    | nil => simp [strLeCore] at h1
    | cons b bs =>
      rcases strLeCore_cons_inv h1 with hab | ⟨hab, h1'⟩ <;>
        rcases strLeCore_cons_inv h2 with hba | ⟨hba, h2'⟩
      · omega
      · omega
      · omega
      · have : a = b := char_toNat_inj hab
        rw [this, ih bs h1' h2']

/-- Totality of the symbol-string order. -/
theorem strLe_total (a b : String) : strLe a b = true ∨ strLe b a = true :=
  strLeCore_total a.toList b.toList

/-- Transitivity of the symbol-string order. -/
theorem strLe_trans {a b c : String} (h1 : strLe a b = true) (h2 : strLe b c = true) :
    strLe a c = true :=
  strLeCore_trans a.toList b.toList c.toList h1 h2

/-- Antisymmetry of the symbol-string order. -/
theorem strLe_antisymm {a b : String} (h1 : strLe a b = true) (h2 : strLe b a = true) :
    a = b := by
  have h : a.toList = b.toList := strLeCore_antisymm a.toList b.toList h1 h2
  cases a; cases b
  simp only [String.toList] at h
  exact congrArg String.mk h

/-- Propositional characterization of the date order. -/
theorem dateLe_iff (a b : Date) : dateLe a b = true ↔
    (a.year < b.year ∨ (a.year = b.year ∧
      (a.month < b.month ∨ (a.month = b.month ∧ a.day ≤ b.day)))) := by
  unfold dateLe
  by_cases h1 : a.year = b.year
  · by_cases h2 : a.month = b.month
    · simp [h1, h2]
    · simp [h1, h2]
  · simp [h1]

/-- Totality of the date order. -/
theorem dateLe_total (a b : Date) : dateLe a b = true ∨ dateLe b a = true := by
  rw [dateLe_iff, dateLe_iff]
  omega

/-- Transitivity of the date order. -/
theorem dateLe_trans {a b c : Date} (h1 : dateLe a b = true) (h2 : dateLe b c = true) :
    dateLe a c = true := by
  rw [dateLe_iff] at h1 h2 ⊢
  omega

/-- Antisymmetry of the date order. -/
theorem dateLe_antisymm {a b : Date} (h1 : dateLe a b = true) (h2 : dateLe b a = true) :
    a = b := by
  rw [dateLe_iff] at h1 h2
  cases a; cases b
  simp only [Date.mk.injEq]
  simp only at h1 h2
  omega

/-- Totality of the row order. -/
theorem rowLe_total (a b : PriceRow) : rowLe a b = true ∨ rowLe b a = true := by
  unfold rowLe
  by_cases h : a.symbol = b.symbol
  · simp [h, dateLe_total a.date b.date]
  · have h' : ¬ b.symbol = a.symbol := fun e => h e.symm
    simp [h, h', strLe_total a.symbol b.symbol]

/-- Transitivity of the row order. -/
theorem rowLe_trans {a b c : PriceRow} (h1 : rowLe a b = true) (h2 : rowLe b c = true) :
    rowLe a c = true := by
  unfold rowLe at h1 h2 ⊢
  by_cases e1 : a.symbol = b.symbol <;> by_cases e2 : b.symbol = c.symbol
  · have e3 : a.symbol = c.symbol := e1.trans e2
    simp only [e1, e2, if_pos] at h1 h2
    simp only [e3, if_pos]
    exact dateLe_trans h1 h2
  · have e3 : ¬ a.symbol = c.symbol := fun e => e2 (e1.symm.trans e)
    simp only [e1, if_pos] at h1
    simp only [e2, if_neg, if_false] at h2
    simp only [e3, if_neg, if_false]
    rw [e1]
    exact h2
  · have e3 : ¬ a.symbol = c.symbol := fun e => e1 (e.trans e2.symm)
    simp only [e1, if_neg, if_false] at h1
    simp only [e2, if_pos] at h2
    simp only [e3, if_neg, if_false]
    rw [← e2]
    exact h1
  · simp only [e1, if_neg, if_false] at h1
    simp only [e2, if_neg, if_false] at h2
    by_cases e3 : a.symbol = c.symbol
    · exfalso
      have h2' : strLe b.symbol a.symbol = true := by rw [e3]; exact h2
      exact e1 (strLe_antisymm h1 h2')
    · simp only [e3, if_neg, if_false]
      exact strLe_trans h1 h2

/-- Unfolding equation of insertLe on nil. -/
theorem insertLe_nil (le : α → α → Bool) (x : α) : insertLe le x [] = [x] := rfl

/-- Unfolding equation of insertLe on cons. -/
theorem insertLe_cons (le : α → α → Bool) (x y : α) (ys : List α) :
    insertLe le x (y :: ys) = if le x y then x :: y :: ys else y :: insertLe le x ys := rfl

/-- Ordered insertion permutes the element onto the list. -/
theorem insertLe_perm (le : α → α → Bool) (x : α) (l : List α) :
    (insertLe le x l).Perm (x :: l) := by
  induction l with
  | nil => simp [insertLe]
  | cons y ys ih =>
    unfold insertLe
    by_cases h : le x y = true
    · simp [h]
    · simp only [h, if_false, Bool.false_eq_true, if_neg]
      exact ((ih.cons y).trans (List.Perm.swap x y ys)).symm.symm

/-- Insertion sort permutes its input. -/
theorem insertionSort_perm (le : α → α → Bool) (l : List α) :
    (insertionSort le l).Perm l := by
  induction l with
  | nil => exact List.Perm.refl _
  | cons x xs ih =>
    exact (insertLe_perm le x (insertionSort le xs)).trans (ih.cons x)

/-- Membership in an ordered insertion. -/
theorem insertLe_mem {le : α → α → Bool} {x a : α} {l : List α} :
    a ∈ insertLe le x l ↔ a = x ∨ a ∈ l := by
  constructor
  · intro h
    have := (insertLe_perm le x l).mem_iff.mp h
    simpa using this
  · intro h
    apply (insertLe_perm le x l).mem_iff.mpr
    simpa using h

/-- When the element precedes everything in the list, insertion is cons. -/
theorem insertLe_eq_cons {le : α → α → Bool} {x : α} {l : List α}
    (h : ∀ z ∈ l, le x z = true) : insertLe le x l = x :: l := by
  cases l with
  | nil => rfl
  | cons y ys => simp [insertLe, h y (by simp)]

/-- Ordered insertion preserves sortedness, given totality and transitivity. -/
theorem insertLe_pairwise {le : α → α → Bool}
    (htot : ∀ a b, le a b = true ∨ le b a = true)
    (htrans : ∀ a b c, le a b = true → le b c = true → le a c = true)
    {x : α} {l : List α} (hs : l.Pairwise (fun a b => le a b = true)) :
    (insertLe le x l).Pairwise (fun a b => le a b = true) := by
  induction l with
  | nil => simp [insertLe]
  | cons y ys ih =>
    rcases List.pairwise_cons.mp hs with ⟨hy, hys⟩
    unfold insertLe
    by_cases h : le x y = true
    · simp only [h, if_pos]
      refine List.pairwise_cons.mpr ⟨?_, hs⟩
      intro z hz
      rcases List.mem_cons.mp hz with rfl | hz'
      · exact h
      · exact htrans x y z h (hy z hz')
    · simp only [h, if_false, Bool.false_eq_true, if_neg]
      refine List.pairwise_cons.mpr ⟨?_, ih hys⟩
      intro z hz
      rcases insertLe_mem.mp hz with rfl | hz'
      · rcases htot z y with h' | h'
        · exact absurd h' h
        · exact h'
      · exact hy z hz'

/-- Insertion sort sorts, given totality and transitivity. -/
theorem insertionSort_pairwise {le : α → α → Bool}
    (htot : ∀ a b, le a b = true ∨ le b a = true)
    (htrans : ∀ a b c, le a b = true → le b c = true → le a c = true)
    (l : List α) : (insertionSort le l).Pairwise (fun a b => le a b = true) := by
  induction l with
  | nil => simp [insertionSort]
  | cons x xs ih => exact insertLe_pairwise htot htrans ih

/-- Filtering commutes with ordered insertion into a sorted list. -/
theorem filter_insertLe {le : α → α → Bool}
    (htrans : ∀ a b c, le a b = true → le b c = true → le a c = true)
    (p : α → Bool) {x : α} {l : List α} (hs : l.Pairwise (fun a b => le a b = true)) :
    (insertLe le x l).filter p = if p x then insertLe le x (l.filter p) else l.filter p := by
  induction l with
  | nil =>
    by_cases hx : p x <;> simp [insertLe_nil, hx]
  | cons y ys ih =>
    rcases List.pairwise_cons.mp hs with ⟨hy, hys⟩
    rw [insertLe_cons]
    by_cases hxy : le x y = true
    · rw [if_pos hxy]
      by_cases hx : p x
      · by_cases hpy : p y
        · have hfx : List.filter p (x :: y :: ys) = x :: y :: List.filter p ys := by
            simp [List.filter, hx, hpy]
          have hfy : List.filter p (y :: ys) = y :: List.filter p ys := by
            simp [List.filter, hpy]
          rw [hfx, if_pos hx, hfy, insertLe_cons, if_pos hxy]
        · have hall : ∀ z ∈ ys.filter p, le x z = true := by
            intro z hz
            exact htrans x y z hxy (hy z (List.mem_of_mem_filter hz))
          have hfx : List.filter p (x :: y :: ys) = x :: List.filter p ys := by
            simp [List.filter, hx, hpy]
          have hfy : List.filter p (y :: ys) = List.filter p ys := by
            simp [List.filter, hpy]
          rw [hfx, if_pos hx, hfy, insertLe_eq_cons hall]
      · by_cases hpy : p y <;> simp [List.filter, hx, hpy]
    · rw [if_neg hxy]
      by_cases hpy : p y
      · have hl : List.filter p (y :: insertLe le x ys) = y :: List.filter p (insertLe le x ys) := by
          simp [List.filter, hpy]
        have hfy : List.filter p (y :: ys) = y :: List.filter p ys := by
          simp [List.filter, hpy]
        rw [hl, ih hys, hfy]
        by_cases hx : p x
        · rw [if_pos hx, if_pos hx, insertLe_cons, if_neg hxy]
        · rw [if_neg hx, if_neg hx]
      · have hl : List.filter p (y :: insertLe le x ys) = List.filter p (insertLe le x ys) := by
          simp [List.filter, hpy]
        have hfy : List.filter p (y :: ys) = List.filter p ys := by
          simp [List.filter, hpy]
        rw [hl, ih hys, hfy]

/-- Filtering commutes with insertion sort, given totality and transitivity. -/
theorem filter_insertionSort {le : α → α → Bool}
    (htot : ∀ a b, le a b = true ∨ le b a = true)
    (htrans : ∀ a b c, le a b = true → le b c = true → le a c = true)
    (p : α → Bool) (l : List α) :
    (insertionSort le l).filter p = insertionSort le (l.filter p) := by
  induction l with
  | nil => rfl
  | cons x xs ih =>
    rw [show insertionSort le (x :: xs) = insertLe le x (insertionSort le xs) from rfl]
    rw [filter_insertLe htrans p (insertionSort_pairwise htot htrans xs)]
    by_cases hx : p x
    · have hf : List.filter p (x :: xs) = x :: List.filter p xs := by
        simp [List.filter, hx]
      rw [if_pos hx, ih, hf]
      rw [show insertionSort le (x :: List.filter p xs) =
        insertLe le x (insertionSort le (List.filter p xs)) from rfl]
    · have hf : List.filter p (x :: xs) = List.filter p xs := by
        simp [List.filter, hx]
      rw [if_neg hx, ih, hf]

/-- The base fields of the feature pass output are the input rows. -/
theorem featureizeAux_map_baseOf (full done todo : List PriceRow) :
    (featureizeAux full done todo).map baseOf = todo := by
  induction todo generalizing done with
  | nil => rfl
  | cons r rest ih =>
    simp only [featureizeAux, List.map_cons, ih]
    rfl

/-- Length of the feature pass output. -/
theorem featureizeAux_length (full done todo : List PriceRow) :
    (featureizeAux full done todo).length = todo.length := by
  have := featureizeAux_map_baseOf full done todo
  calc (featureizeAux full done todo).length
      = ((featureizeAux full done todo).map baseOf).length := (List.length_map _ _).symm
    _ = todo.length := by rw [this]

/-- Symbol field of a feature record is the source row's symbol. -/
theorem mkFeature_symbol (g : List (Option ℚ)) (k : ℕ) (r : PriceRow) :
    (mkFeature g k r).symbol = r.symbol := rfl

/-- Unfolding equation of the per-group feature pass on cons. -/
theorem groupFeatureFrom_cons (g : List (Option ℚ)) (k : ℕ) (r : PriceRow)
    (rest : List PriceRow) :
    groupFeatureFrom g k (r :: rest) = mkFeature g k r :: groupFeatureFrom g (k + 1) rest := rfl

/-- Filtering the feature pass on a symbol yields that group's per-group
feature pass, offset by the already-done rows of the symbol. -/
theorem featureizeAux_filter (full : List PriceRow) (s : String)
    (todo done : List PriceRow) :
    (featureizeAux full done todo).filter (fun r => r.symbol == s) =
      groupFeatureFrom (groupCloses full s)
        ((done.filter (fun q => q.symbol == s)).length)
        (todo.filter (fun r => r.symbol == s)) := by
  induction todo generalizing done with
  | nil => rfl
  | cons r rest ih =>
    by_cases hrs : r.symbol = s
    · have hbeq : (r.symbol == s) = true := by simp [hrs]
      have hdone : ((done ++ [r]).filter (fun q => q.symbol == s)).length =
          (done.filter (fun q => q.symbol == s)).length + 1 := by
        simp [List.filter_append, List.filter, hbeq]
      simp only [featureizeAux, List.filter, mkFeature_symbol, hbeq]
      rw [ih (done ++ [r]), hdone, groupFeatureFrom_cons]
      simp [hrs]
    · have hbeq : (r.symbol == s) = false := by simp [hrs]
      have hdone : ((done ++ [r]).filter (fun q => q.symbol == s)).length =
          (done.filter (fun q => q.symbol == s)).length := by
        simp [List.filter_append, List.filter, hbeq]
      simp only [featureizeAux, List.filter, mkFeature_symbol, hbeq]
      rw [ih (done ++ [r]), hdone]

/-- Decomposition of the engineered Dataset into per-symbol feature passes. -/
theorem featureRowsOf_decomp (rows : List PriceRow) (s : String) :
    featureRowsOf rows s =
      groupFeatureFrom (symbolCloses rows s) 0 (symbolRows rows s) := by
  unfold featureRowsOf feature_engineer
  by_cases hn : rows = []
  · simp only [hn, if_pos]
    have : symbolRows ([] : List PriceRow) s = [] := rfl
    simp [this, groupFeatureFrom, List.filter]
  · simp only [hn, if_neg, if_false]
    rw [featureizeAux_filter]
    have hsf : (sortRows rows).filter (fun r => r.symbol == s) = symbolRows rows s := by
      unfold sortRows symbolRows sortRows
      exact filter_insertionSort rowLe_total (fun a b c => rowLe_trans) _ rows
    have hgc : groupCloses (sortRows rows) s = symbolCloses rows s := by
      unfold groupCloses symbolCloses
      rw [hsf]
    rw [hsf, hgc]
    simp [List.filter]

/-- Length of the per-group feature pass. -/
theorem groupFeatureFrom_length (g : List (Option ℚ)) (k : ℕ) (rows : List PriceRow) :
    (groupFeatureFrom g k rows).length = rows.length := by
  induction rows generalizing k with
  | nil => rfl
  | cons r rest ih => simp [groupFeatureFrom_cons, ih]

/-- Element t of the per-group feature pass is the feature record of the
group's row t at group position k + t. -/
theorem groupFeatureFrom_getD (g : List (Option ℚ)) (k : ℕ) (rows : List PriceRow)
    (t : ℕ) (ht : t < rows.length) :
    (groupFeatureFrom g k rows).getD t junkFeatureRow =
      mkFeature g (k + t) (rows.getD t junkPriceRow) := by
  induction rows generalizing k t with
  | nil => simp at ht
  | cons r rest ih =>
    cases t with
    | zero => simp [groupFeatureFrom_cons]
    | succ t =>
      have ht' : t < rest.length := by simpa using ht
      simp only [groupFeatureFrom_cons, List.getD_cons_succ]
      rw [ih (k + 1) t ht']
      have : k + 1 + t = k + (t + 1) := by omega
      rw [this]

/-- The transform of a row keeps its symbol. -/
theorem transformRow_symbol {r : RawRow} {p : PriceRow} (h : transformRow r = .ok p) :
    p.symbol = r.symbol := by
  unfold transformRow at h
  cases hd : parseDate r.date with
  | none => rw [hd] at h; cases h
  | some d =>
    rw [hd] at h
    cases h
    rfl

/-- Shape of a successful row transform: the date is the parsed date and
every numeric field is the coercive parse of its string. -/
theorem transformRow_eq {r : RawRow} {d : Date} (h : parseDate r.date = some d) :
    transformRow r = .ok ⟨r.symbol, d, parseDecimal r.«open», parseDecimal r.high,
      parseDecimal r.low, parseDecimal r.close, parseDecimal r.volume⟩ := by
  unfold transformRow
  rw [h]

/-- A row transform succeeds exactly when its date parses; numeric fields
can never make it fail. -/
theorem transformRow_ok_iff (r : RawRow) :
    (∃ p, transformRow r = .ok p) ↔ (parseDate r.date).isSome := by
  unfold transformRow
  cases hd : parseDate r.date with
  | none => simp
  | some d => simp

/-- A successful transform run produces exactly the pure per-row view. -/
theorem transformList_ok_eq {rows : List RawRow} {prs : List PriceRow}
    (h : transformList rows = .ok prs) : prs = transformPure rows := by
  induction rows generalizing prs with
  | nil =>
    cases h
    rfl
  | cons r rest ih =>
    unfold transformList at h
    cases hr : transformRow r with
    | error e => rw [hr] at h; cases h
    | ok p =>
      rw [hr] at h
      cases hrest : transformList rest with
      | error e => rw [hrest] at h; cases h
      | ok ps =>
        rw [hrest] at h
        cases h
        unfold transformPure
        simp [List.filterMap_cons, hr, Except.toOption]
        exact ih hrest

/-- Unfolding fact: toOption of a success. -/
theorem exceptToOption_ok (p : PriceRow) :
    (Except.ok p : Except String PriceRow).toOption = some p := rfl

/-- Unfolding fact: toOption of a failure. -/
theorem exceptToOption_error (e : String) :
    (Except.error e : Except String PriceRow).toOption = none := rfl

/-- The pure transform commutes with filtering on a symbol. -/
theorem transformPure_filter (rows : List RawRow) (s : String) :
    transformPure (rows.filter (fun r => r.symbol == s)) =
      (transformPure rows).filter (fun p => p.symbol == s) := by
  induction rows with
  | nil => rfl
  | cons r rest ih =>
    unfold transformPure at ih ⊢
    cases hr : transformRow r with
    | error e =>
      by_cases hs : r.symbol = s
      · simp only [List.filter, hs, beq_self_eq_true, List.filterMap_cons, hr,
          exceptToOption_error, ih]
      · have hb : (r.symbol == s) = false := by simp [hs]
        simp only [List.filter, hb, List.filterMap_cons, hr, exceptToOption_error, ih]
    | ok p =>
      have hps : p.symbol = r.symbol := transformRow_symbol hr
      by_cases hs : r.symbol = s
      · have hb : (r.symbol == s) = true := by simp [hs]
        have hb' : (p.symbol == s) = true := by simp [hps, hs]
        simp only [List.filter, hb, hb', List.filterMap_cons, hr, exceptToOption_ok, ih]
      · have hb : (r.symbol == s) = false := by simp [hs]
        have hb' : (p.symbol == s) = false := by simp [hps, hs]
        simp only [List.filter, hb, hb', List.filterMap_cons, hr, exceptToOption_ok, ih]

/-- When every date parses the transform run succeeds. -/
theorem transformList_ok_of_dates {rows : List RawRow}
    (h : ∀ r ∈ rows, (parseDate r.date).isSome) :
    ∃ prs, transformList rows = .ok prs := by
  induction rows with
  | nil => exact ⟨[], rfl⟩
  | cons r rest ih =>
    rcases (transformRow_ok_iff r).mpr (h r (by simp)) with ⟨p, hp⟩
    rcases ih (fun q hq => h q (by simp [hq])) with ⟨ps, hps⟩
    exact ⟨p :: ps, by unfold transformList; rw [hp, hps]⟩

/-- A successful transform keeps every row: output length equals input. -/
theorem transformList_length {rows : List RawRow} {prs : List PriceRow}
    (h : transformList rows = .ok prs) : prs.length = rows.length := by
  induction rows generalizing prs with
  | nil => cases h; rfl
  | cons r rest ih =>
    unfold transformList at h
    cases hr : transformRow r with
    | error e => rw [hr] at h; cases h
    | ok p =>
      rw [hr] at h
      cases hrest : transformList rest with
      | error e => rw [hrest] at h; cases h
      | ok ps =>
        rw [hrest] at h
        cases h
        simp [ih hrest]

/-- Keys of a successful transform: symbol kept, date the parsed date. -/
theorem transformList_keys {rows : List RawRow} {prs : List PriceRow}
    (h : transformList rows = .ok prs) :
    prs.map (fun p => (p.symbol, some p.date)) =
      rows.map (fun r => (r.symbol, parseDate r.date)) := by
  induction rows generalizing prs with
  | nil => cases h; rfl
  | cons r rest ih =>
    unfold transformList at h
    cases hr : transformRow r with
    | error e => rw [hr] at h; cases h
    | ok p =>
      rw [hr] at h
      cases hrest : transformList rest with
      | error e => rw [hrest] at h; cases h
      | ok ps =>
        rw [hrest] at h
        cases h
        have hsym : p.symbol = r.symbol := transformRow_symbol hr
        have hdate : parseDate r.date = some p.date := by
          unfold transformRow at hr
          cases hd : parseDate r.date with
          | none => rw [hd] at hr; cases hr
          | some d => rw [hd] at hr; cases hr; rfl
        simp [hsym, hdate, ih hrest]

/-- Every row a symbol's call contributes carries that symbol's tag. -/
theorem rawRowsOf_symbol {s : String} {res : ApiResult} {r : RawRow}
    (h : r ∈ rawRowsOf s res) : r.symbol = s := by
  cases res with
  | ok series =>
    unfold rawRowsOf at h
    rcases List.mem_map.mp h with ⟨q, _, rfl⟩
    rfl
  | note m => cases h
  | httpError m => cases h
  | exnOther m => cases h

/-- Every extracted row's symbol comes from the request list. -/
theorem extract_symbol_mem {symbols : List String} {api : String → ApiResult} {r : RawRow}
    (h : r ∈ extract_data symbols api) : r.symbol ∈ symbols := by
  induction symbols with
  | nil => cases h
  | cons s rest ih =>
    rw [extract_data, List.flatMap_cons] at h
    rcases List.mem_append.mp h with hb | hrest
    · rw [rawRowsOf_symbol hb]
      simp
    · exact List.mem_cons_of_mem s (ih hrest)

/-- Filtering a symbol's own block keeps it whole. -/
theorem rawRowsOf_filter_self (s : String) (res : ApiResult) :
    (rawRowsOf s res).filter (fun r => r.symbol == s) = rawRowsOf s res :=
  List.filter_eq_self.mpr (fun r hr => by simp [rawRowsOf_symbol hr])

/-- Filtering another symbol's block empties it. -/
theorem rawRowsOf_filter_other {s s' : String} (hne : s' ≠ s) (res : ApiResult) :
    (rawRowsOf s' res).filter (fun r => r.symbol == s) = [] :=
  List.filter_eq_nil_iff.mpr (fun r hr => by simp [rawRowsOf_symbol hr, hne])

/-- The rows of one symbol in the extraction depend only on that symbol's
own API outcome: two oracles agreeing there extract identical rows for it. -/
theorem extract_filter_congr {api1 api2 : String → ApiResult} (symbols : List String)
    (s : String) (hagree : api1 s = api2 s) :
    (extract_data symbols api1).filter (fun r => r.symbol == s) =
      (extract_data symbols api2).filter (fun r => r.symbol == s) := by
  induction symbols with
  | nil => rfl
  | cons x rest ih =>
    unfold extract_data
    simp only [List.flatMap_cons, List.filter_append]
    unfold extract_data at ih
    rw [ih]
    by_cases hx : x = s
    · subst hx
      rw [hagree]
    · rw [rawRowsOf_filter_other hx, rawRowsOf_filter_other hx]

/-- A symbol whose call failed or returned an empty series contributes no
extracted rows at all. -/
theorem extract_filter_none {api : String → ApiResult} (symbols : List String)
    {s : String} (h : (api s).isOk = false ∨ api s = .ok []) :
    (extract_data symbols api).filter (fun r => r.symbol == s) = [] := by
  induction symbols with
  | nil => rfl
  | cons x rest ih =>
    unfold extract_data
    simp only [List.flatMap_cons, List.filter_append]
    unfold extract_data at ih
    rw [ih]
    by_cases hx : x = s
    · subst hx
      rcases h with hfail | hempty
      · cases hapi : api x with
        | ok series => rw [hapi] at hfail; simp [ApiResult.isOk] at hfail
        | note m => simp [rawRowsOf, List.filter]
        | httpError m => simp [rawRowsOf, List.filter]
        | exnOther m => simp [rawRowsOf, List.filter]
      · rw [hempty]
        simp [rawRowsOf, List.filter]
    · rw [rawRowsOf_filter_other hx]
      simp

/-- Mapping preserves definedness of an optional value. -/
theorem isSome_map (f : α → β) (o : Option α) : (o.map f).isSome = o.isSome := by
  cases o <;> rfl

/-- A window collects its values exactly when no cell is NaN. -/
theorem allSome_isSome_iff (l : List (Option ℚ)) :
    (allSome l).isSome ↔ ∀ x ∈ l, x.isSome := by
  induction l with
  | nil => simp [allSome]
  | cons x rest ih =>
    cases x with
    | none => simp [allSome]
    | some v =>
      simp only [allSome, isSome_map]
      rw [ih]
      simp

/-- The collected window has the window's length. -/
theorem allSome_length {l : List (Option ℚ)} {vs : List ℚ} (h : allSome l = some vs) :
    vs.length = l.length := by
  induction l generalizing vs with
  | nil => cases h; rfl
  | cons x rest ih =>
    cases x with
    | none => cases h
    | some v =>
      unfold allSome at h
      cases hr : allSome rest with
      | none => rw [hr] at h; cases h
      | some ws =>
        rw [hr] at h
        cases h
        simp [ih hr]

/-- A full trailing window has exactly w cells. -/
theorem windowAt_length {l : List (Option ℚ)} {w k : ℕ} (hk : k < l.length)
    (hw : w ≤ k + 1) : (windowAt l w k).length = w := by
  unfold windowAt
  rw [List.length_drop, List.length_take]
  omega

/-- The rolling mean is non-null exactly when the window is full and free of
NaN cells. -/
theorem rollingMean_isSome_iff (w : ℕ) (l : List (Option ℚ)) (k : ℕ) :
    (rollingMean w l k).isSome ↔ (w ≤ k + 1 ∧ ∀ x ∈ windowAt l w k, x.isSome) := by
  unfold rollingMean
  by_cases h : k + 1 < w
  · simp only [h, if_pos, Option.isSome_none, Bool.false_eq_true, false_iff]
    intro hc
    omega
  · rw [if_neg h, isSome_map, allSome_isSome_iff]
    have hw : w ≤ k + 1 := by omega
    simp [hw]

/-- The rolling variance is non-null exactly when the window is full and
free of NaN cells. -/
theorem rollingVariance_isSome_iff (w : ℕ) (l : List (Option ℚ)) (k : ℕ) :
    (rollingVariance w l k).isSome ↔ (w ≤ k + 1 ∧ ∀ x ∈ windowAt l w k, x.isSome) := by
  unfold rollingVariance
  by_cases h : k + 1 < w
  · simp only [h, if_pos, Option.isSome_none, Bool.false_eq_true, false_iff]
    intro hc
    omega
  · rw [if_neg h, isSome_map, allSome_isSome_iff]
    have hw : w ≤ k + 1 := by omega
    simp [hw]

/-- The rolling standard deviation is non-null exactly when its window is
full and free of NaN cells. -/
theorem rollingStd_isSome_iff (w : ℕ) (l : List (Option ℚ)) (k : ℕ) :
    (rollingStd w l k).isSome ↔ (w ≤ k + 1 ∧ ∀ x ∈ windowAt l w k, x.isSome) := by
  unfold rollingStd
  rw [isSome_map]
  exact rollingVariance_isSome_iff w l k

/-- Value of a non-null rolling mean: the arithmetic mean of its window. -/
theorem rollingMean_eq_some {w : ℕ} {l : List (Option ℚ)} {k : ℕ} {m : ℚ}
    (h : rollingMean w l k = some m) :
    w ≤ k + 1 ∧ ∃ vs, allSome (windowAt l w k) = some vs ∧ m = vs.sum / (w : ℚ) := by
  unfold rollingMean at h
  by_cases hk : k + 1 < w
  · rw [if_pos hk] at h; cases h
  · rw [if_neg hk] at h
    cases hv : allSome (windowAt l w k) with
    | none => rw [hv] at h; cases h
    | some vs =>
      rw [hv] at h
      cases h
      exact ⟨by omega, vs, rfl, rfl⟩

/-- Value of a non-null rolling standard deviation: the square root of the
sample variance of its window. -/
theorem rollingStd_eq_some {w : ℕ} {l : List (Option ℚ)} {k : ℕ} {v : ℝ}
    (h : rollingStd w l k = some v) :
    w ≤ k + 1 ∧ ∃ vs, allSome (windowAt l w k) = some vs ∧
      v = Real.sqrt ((sampleVariance vs : ℚ) : ℝ) := by
  unfold rollingStd rollingVariance at h
  by_cases hk : k + 1 < w
  · rw [if_pos hk] at h
    cases h
  · rw [if_neg hk] at h
    cases hv : allSome (windowAt l w k) with
    | none => rw [hv] at h; cases h
    | some vs =>
      rw [hv] at h
      cases h
      exact ⟨by omega, vs, rfl, rfl⟩

/-- The first daily return of a group is null. -/
theorem dailyReturn_zero (closes : List (Option ℚ)) : dailyReturn closes 0 = none := rfl

/-- The return series starts with the null first return. -/
theorem returnsOf_getD_zero {closes : List (Option ℚ)} (h : 0 < closes.length) :
    (returnsOf closes).getD 0 none = none := by
  unfold returnsOf
  cases hc : closes with
  | nil => rw [hc] at h; simp at h
  | cons c rest => simp [List.range_succ_eq_map, dailyReturn_zero]

/-- A non-null rolling volatility of the return series needs at least 31
group positions: its window must avoid the null first return. -/
theorem rollingStd_returns_lower {g : List (Option ℚ)} {k : ℕ} (hk : k < g.length)
    (h : (rollingStd 30 (returnsOf g) k).isSome) : 30 ≤ k := by
  rcases (rollingStd_isSome_iff 30 (returnsOf g) k).mp h with ⟨hw, hall⟩
  by_contra hlt
  have hk29 : k + 1 - 30 = 0 := by omega
  have hlen : (returnsOf g).length = g.length := by
    unfold returnsOf
    simp
  have hmem : (none : Option ℚ) ∈ windowAt (returnsOf g) 30 k := by
    unfold windowAt
    rw [hk29, List.drop_zero]
    have h0 : (returnsOf g).getD 0 none = none := returnsOf_getD_zero (by omega)
    have hpos : 0 < (returnsOf g).length := by omega
    cases hr : returnsOf g with
    | nil => rw [hr] at hpos; simp at hpos
    | cons a rest =>
      rw [hr] at h0
      simp at h0
      subst h0
      simp [List.take_cons]
  have := hall none hmem
  simp at this

/-- The sort of line 76 permutes the rows. -/
theorem sortRows_perm (rows : List PriceRow) : (sortRows rows).Perm rows :=
  insertionSort_perm rowLe rows

/-- The sort of line 76 orders rows by symbol then date ascending. -/
theorem sortRows_pairwise (rows : List PriceRow) :
    (sortRows rows).Pairwise (fun a b => rowLe a b = true) :=
  insertionSort_pairwise rowLe_total (fun _ _ _ => rowLe_trans) rows

/-- The base fields of the engineered Dataset are exactly the sorted input
rows: nothing added, nothing removed, nothing overwritten. -/
theorem feature_engineer_map_baseOf (rows : List PriceRow) :
    (feature_engineer rows).map baseOf = sortRows rows := by
  unfold feature_engineer
  by_cases h : rows = []
  · subst h
    rfl
  · simp only [h, if_neg, if_false]
    exact featureizeAux_map_baseOf _ _ _

/-- Keys of one symbol's extracted block. -/
theorem rawRowsOf_keys (s : String) (series : List (String × RawFields)) :
    (rawRowsOf s (.ok series)).map (fun r => (r.symbol, parseDate r.date)) =
      (series.map (fun q => parseDate q.1)).map (fun pd => (s, pd)) := by
  unfold rawRowsOf
  simp [List.map_map]

/-- Distinct symbols with per-response unique date keys extract rows with
pairwise distinct (symbol, parsed date) keys. -/
theorem extract_keys_nodup (symbols : List String) (api : String → ApiResult)
    (hsym : symbols.Nodup) (hapi : ∀ s, apiDatesNodup (api s)) :
    ((extract_data symbols api).map (fun r => (r.symbol, parseDate r.date))).Nodup := by
  induction symbols with
  | nil => exact List.nodup_nil
  | cons s rest ih =>
    rcases List.nodup_cons.mp hsym with ⟨hs, hrest⟩
    rw [extract_data, List.flatMap_cons, List.map_append]
    refine List.nodup_append.mpr ⟨?_, ih hrest, ?_⟩
    · cases hres : api s with
      | ok series =>
        rw [rawRowsOf_keys]
        have hn : (series.map (fun q => parseDate q.1)).Nodup := by
          have := hapi s
          rw [hres] at this
          exact this
        exact hn.map (fun a b hab => by simpa using hab)
      | note m => exact List.nodup_nil
      | httpError m => exact List.nodup_nil
      | exnOther m => exact List.nodup_nil
    · intro key hkey hkey2
      rcases List.mem_map.mp hkey with ⟨r, hr, rfl⟩
      rcases List.mem_map.mp hkey2 with ⟨r2, hr2, hk2⟩
      have h1 : r.symbol = s := rawRowsOf_symbol hr
      have h2 : r2.symbol ∈ rest := extract_symbol_mem hr2
      have : r2.symbol = r.symbol := congrArg Prod.fst hk2
      rw [this, h1] at h2
      exact hs h2

/-- Under distinct symbols and unique per-response date keys, a successful
run's Dataset has pairwise distinct (symbol, date) keys: one row per pair. -/
theorem dataset_keys_nodup {symbols : List String} {api : String → ApiResult}
    {prs : List PriceRow} (hsym : symbols.Nodup) (hapi : ∀ s, apiDatesNodup (api s))
    (h : transform_data (extract_data symbols api) = .ok prs) :
    ((feature_engineer prs).map (fun r => (r.symbol, r.date))).Nodup := by
  have hfeat : (feature_engineer prs).map (fun r => (r.symbol, r.date)) =
      (sortRows prs).map (fun p => (p.symbol, p.date)) := by
    have hcomp : (feature_engineer prs).map (fun r => (r.symbol, r.date)) =
        ((feature_engineer prs).map baseOf).map (fun p => (p.symbol, p.date)) := by
      rw [List.map_map]
      rfl
    rw [hcomp, feature_engineer_map_baseOf]
  rw [hfeat]
  rw [List.Perm.nodup_iff ((sortRows_perm prs).map (fun p => (p.symbol, p.date)))]
  by_cases hraw : extract_data symbols api = []
  · unfold transform_data at h
    rw [hraw] at h
    simp at h
    subst h
    exact List.nodup_nil
  · unfold transform_data at h
    rw [if_neg hraw] at h
    have hkeys := transformList_keys h
    have hrawkeys := extract_keys_nodup symbols api hsym hapi
    rw [← hkeys] at hrawkeys
    have hmm : prs.map (fun p => (p.symbol, some p.date)) =
        (prs.map (fun p => (p.symbol, p.date))).map (fun q => (q.1, some q.2)) := by
      rw [List.map_map]
      rfl
    rw [hmm] at hrawkeys
    exact List.Nodup.of_map _ hrawkeys

/-- A successful transform_data run produces the pure per-row view. -/
theorem transform_data_ok_eq {rows : List RawRow} {prs : List PriceRow}
    (h : transform_data rows = .ok prs) : prs = transformPure rows := by
  unfold transform_data at h
  by_cases hn : rows = []
  · rw [if_pos hn] at h
    cases h
    rw [hn]
    rfl
  · rw [if_neg hn] at h
    exact transformList_ok_eq h

/-- Rows of one symbol in a successful Dataset, as a function of the raw
extraction restricted to that symbol. -/
theorem featureRowsOf_from_raw {raw : List RawRow} {prs : List PriceRow} (s : String)
    (h : transform_data raw = .ok prs) :
    featureRowsOf prs s =
      groupFeatureFrom
        ((sortRows (transformPure (raw.filter (fun r => r.symbol == s)))).map (fun r => r.close))
        0 (sortRows (transformPure (raw.filter (fun r => r.symbol == s)))) := by
  rw [featureRowsOf_decomp]
  have hp : prs = transformPure raw := transform_data_ok_eq h
  have hfil : prs.filter (fun p => p.symbol == s) =
      transformPure (raw.filter (fun r => r.symbol == s)) := by
    rw [hp, transformPure_filter]
  unfold symbolRows symbolCloses
  unfold symbolRows
  rw [hfil]

/-- C10: for every input PriceRecord collection the Feature Engine neither
adds nor removes rows, leaves the seven pre-existing fields of every row
unchanged (the base projection of the output is exactly the sorted input),
and only reorders rows by (symbol, date) ascending while appending the four
feature columns. -/
theorem C10_feature_engine_frame (rows : List PriceRow) :
    (feature_engineer rows).map baseOf = sortRows rows ∧
    (sortRows rows).Perm rows ∧
    ((feature_engineer rows).map baseOf).Pairwise (fun a b => rowLe a b = true) ∧
    (feature_engineer rows).length = rows.length := by
  refine ⟨feature_engineer_map_baseOf rows, sortRows_perm rows, ?_, ?_⟩
  · rw [feature_engineer_map_baseOf]
    exact sortRows_pairwise rows
  · have h1 : ((feature_engineer rows).map baseOf).length = (sortRows rows).length := by
      rw [feature_engineer_map_baseOf]
    rw [List.length_map] at h1
    rw [h1]
    exact (sortRows_perm rows).length_eq

/-- C8 counterexample: transform_data mutates its argument in place; after a
call on the raw frame the argument's columns are no longer the raw columns,
refuting the claim that the Transformer does not modify its argument. -/
theorem C8_counterexample : transformArgColumnsAfter rawDataColumns ≠ rawDataColumns := by
  decide

/-- C8 amended: the Transformer is a deterministic function of its input and
empty input yields empty output with no error, but it transforms its
argument in place: after a call on the raw frame the argument holds the
transformed columns, which coincide with the returned frame's columns. -/
theorem C8_amended_transform_inplace :
    transform_data [] = .ok [] ∧
    transformedColumns = ["date", "open", "high", "low", "close", "volume", "symbol"] ∧
    transformArgColumnsAfter rawDataColumns = transformedColumns :=
  ⟨rfl, by decide, rfl⟩

/-- C7: a numeric field that fails to parse becomes null while the row is
kept: a successful row transform keeps the symbol and maps every numeric
field through the coercive parse; a row transform can only fail on its date,
never on a numeric field; and a successful transform run keeps every row. -/
theorem C7_parse_fault_nulls_field :
    (∀ (r : RawRow) (d : Date), parseDate r.date = some d →
      transformRow r = .ok ⟨r.symbol, d, parseDecimal r.«open», parseDecimal r.high,
        parseDecimal r.low, parseDecimal r.close, parseDecimal r.volume⟩) ∧
    (∀ r : RawRow, (∃ p, transformRow r = .ok p) ↔ (parseDate r.date).isSome) ∧
    (∀ (rows : List RawRow) (prs : List PriceRow), transformList rows = .ok prs →
      prs.length = rows.length) :=
  ⟨fun _ _ h => transformRow_eq h, transformRow_ok_iff, fun _ _ h => transformList_length h⟩

/-- C7 witness: a concrete row whose open field is unparseable is kept with
that field nulled and all other fields parsed. -/
theorem C7_parse_fault_witness :
    parseDate "2024-01-02" = some ⟨2024, 1, 2⟩ ∧
    transformRow ⟨"2024-01-02", "N/A", "2", "3", "4", "5", "AAPL"⟩ =
      .ok ⟨"AAPL", ⟨2024, 1, 2⟩, parseDecimal "N/A", parseDecimal "2", parseDecimal "3",
        parseDecimal "4", parseDecimal "5"⟩ ∧
    parseDecimal "N/A" = none :=
  ⟨by decide, C7_parse_fault_nulls_field.1 ⟨"2024-01-02", "N/A", "2", "3", "4", "5", "AAPL"⟩
    ⟨2024, 1, 2⟩ (by decide), by decide⟩

/-- C4 counterexample: when a call hits the quota note the loop continues
without sleeping, so with zero latency the next call is issued at the same
instant and the fixed 12-unit inter-call gap fails. -/
theorem C4_counterexample :
    ¬ minGapTwelve (extractSchedule (fun _ => .note "limit") (fun _ => 0) ["A", "B"] 0) := by
  intro h
  have hsched : extractSchedule (fun _ => .note "limit") (fun _ => 0) ["A", "B"] 0 =
      [(0, "A"), ((0 : ℚ) + 0 + 0, "B")] := by
    simp [extractSchedule, ApiResult.isOk]
  unfold minGapTwelve at h
  rw [hsched] at h
  have h12 := (List.chain'_cons.mp h).1
  norm_num at h12

/-- C4 amended: the 12-unit delay is enforced only after a successful call.
If call i of the schedule was a success, call i + 1 is issued at least 12
units later, whatever the per-call latency. -/
theorem C4_amended_gap_after_success (api : String → ApiResult) (lat : String → ℚ)
    (symbols : List String) (t0 : ℚ) (hlat : ∀ s, 0 ≤ lat s) (i : ℕ)
    (hi : i + 1 < (extractSchedule api lat symbols t0).length)
    (hok : (api ((extractSchedule api lat symbols t0).getD i (0, "")).2).isOk = true) :
    ((extractSchedule api lat symbols t0).getD i (0, "")).1 + 12 ≤
      ((extractSchedule api lat symbols t0).getD (i + 1) (0, "")).1 := by
  induction symbols generalizing t0 i with
  | nil => simp [extractSchedule] at hi
  | cons s rest ih =>
    cases i with
    | zero =>
      cases rest with
      | nil => simp [extractSchedule] at hi
      | cons r rest' =>
        simp only [extractSchedule, List.getD_cons_zero, List.getD_cons_succ] at hok ⊢
        rw [hok]
        simp only [if_true, extractSchedule, List.getD_cons_zero]
        have := hlat s
        linarith
    | succ i =>
      simp only [extractSchedule, List.getD_cons_succ] at hok ⊢
      apply ih
      · simpa [extractSchedule] using hi
      · exact hok

/-- C4 witness: with two successful calls and zero latency the second call
is issued exactly 12 units after the first. -/
theorem C4_gap_witness :
    (∀ s : String, (0 : ℚ) ≤ (fun _ => (0 : ℚ)) s) ∧
    (0 + 1 < (extractSchedule (fun _ => .ok []) (fun _ => (0 : ℚ)) ["A", "B"] 0).length) ∧
    ((extractSchedule (fun _ => .ok []) (fun _ => (0 : ℚ)) ["A", "B"] 0).getD 0 (0, "")).1 + 12 ≤
      ((extractSchedule (fun _ => .ok []) (fun _ => (0 : ℚ)) ["A", "B"] 0).getD 1 (0, "")).1 :=
  ⟨fun _ => le_refl 0, by simp [extractSchedule],
    C4_amended_gap_after_success (fun _ => .ok []) (fun _ => (0 : ℚ)) ["A", "B"] 0
      (fun _ => le_refl 0) 0 (by simp [extractSchedule]) (by simp [ApiResult.isOk, extractSchedule])⟩

/-- C1 counterexample: the persisted artifact's rolling-volatility column is
named volatility by the source, not volatility30 as the claimed schema
requires. -/
theorem C1_counterexample :
    "volatility30" ∉ featureColumns ∧ "volatility" ∈ featureColumns := by
  decide

/-- C1 amended: the artifact's columns are exactly symbol, date, open, high,
low, close, volume, daily_return, MA50, MA200, and volatility (the last
named volatility rather than volatility30), and a successful run over
distinct symbols whose responses carry unique date keys persists exactly one
row per (symbol, date). -/
theorem C1_amended_artifact_schema {symbols : List String} {api : String → ApiResult}
    {prs : List PriceRow} (hsym : symbols.Nodup) (hapi : ∀ s, apiDatesNodup (api s))
    (h : transform_data (extract_data symbols api) = .ok prs) :
    featureColumns = ["date", "open", "high", "low", "close", "volume", "symbol",
      "daily_return", "MA50", "MA200", "volatility"] ∧
    ((feature_engineer prs).map (fun r => (r.symbol, r.date))).Nodup :=
  ⟨by decide, dataset_keys_nodup hsym hapi h⟩

/-- C1 witness: the amended schema theorem applied to a concrete one-symbol
run. -/
theorem C1_artifact_schema_witness :
    (["AAPL"] : List String).Nodup ∧
    (∀ s, apiDatesNodup (c1api s)) ∧
    transform_data (extract_data ["AAPL"] c1api) =
      .ok [⟨"AAPL", ⟨2024, 1, 2⟩, none, none, none, none, none⟩] ∧
    (featureColumns = ["date", "open", "high", "low", "close", "volume", "symbol",
      "daily_return", "MA50", "MA200", "volatility"] ∧
    ((feature_engineer [⟨"AAPL", ⟨2024, 1, 2⟩, none, none, none, none, none⟩]).map
      (fun r => (r.symbol, r.date))).Nodup) := by
  have hapi : ∀ s, apiDatesNodup (c1api s) := by
    intro s
    unfold c1api
    by_cases hs : s = "AAPL"
    · simp [hs, apiDatesNodup]
    · simp [hs, apiDatesNodup]
  have h : transform_data (extract_data ["AAPL"] c1api) =
      .ok [⟨"AAPL", ⟨2024, 1, 2⟩, none, none, none, none, none⟩] := by rfl
  exact ⟨by decide, hapi, h, C1_amended_artifact_schema (by decide) hapi h⟩

/-- C9: a symbol with zero observations after extraction (its call failed or
returned an empty series) has no feature record in a successful Dataset. -/
theorem C9_no_rows_for_empty_symbol {symbols : List String} {api : String → ApiResult}
    {s : String} {prs : List PriceRow}
    (hfail : (api s).isOk = false ∨ api s = .ok [])
    (h : transform_data (extract_data symbols api) = .ok prs) :
    featureRowsOf prs s = [] := by
  have hraw : (extract_data symbols api).filter (fun r => r.symbol == s) = [] :=
    extract_filter_none symbols hfail
  rw [featureRowsOf_from_raw s h, hraw]
  rfl

/-- C9 witness: the failed symbol GOOGL contributes no rows to a concrete
two-symbol run's Dataset. -/
theorem C9_no_rows_witness :
    (c9api "GOOGL").isOk = false ∧
    transform_data (extract_data ["AAPL", "GOOGL"] c9api) =
      .ok [⟨"AAPL", ⟨2024, 1, 2⟩, none, none, none, none, none⟩] ∧
    featureRowsOf [⟨"AAPL", ⟨2024, 1, 2⟩, none, none, none, none, none⟩] "GOOGL" = [] := by
  have h : transform_data (extract_data ["AAPL", "GOOGL"] c9api) =
      .ok [⟨"AAPL", ⟨2024, 1, 2⟩, none, none, none, none, none⟩] := by rfl
  exact ⟨by decide, h, C9_no_rows_for_empty_symbol (Or.inl (by decide)) h⟩

/-- C6: a run over well-formed dates terminates in exactly one of the three
specified states and never crashes: a falsy credential gives the fatal
configuration error with no call issued and the artifact untouched, an empty
extraction ends quietly with the artifact untouched, and otherwise the
artifact is wholly replaced by the freshly engineered Dataset. -/
theorem C6_run_trichotomy (apiKey : Option String) (api : String → ApiResult)
    (old : Option (List FeatureRow))
    (hdates : ∀ r ∈ extract_data SYMBOLS api, (parseDate r.date).isSome) :
    (∀ m, (main_run apiKey api old).outcome ≠ .crashed m) ∧
    (apiKeyFalsy apiKey = true →
      main_run apiKey api old = ⟨.fatalConfigError, old, []⟩) ∧
    (apiKeyFalsy apiKey = false → extract_data SYMBOLS api = [] →
      main_run apiKey api old = ⟨.nothingFetched, old, SYMBOLS⟩) ∧
    (apiKeyFalsy apiKey = false → extract_data SYMBOLS api ≠ [] →
      ∃ prs, transform_data (extract_data SYMBOLS api) = .ok prs ∧
        main_run apiKey api old = ⟨.artifactWritten, some (feature_engineer prs), SYMBOLS⟩) := by
  by_cases hkey : apiKeyFalsy apiKey = true
  · have hrun : main_run apiKey api old = ⟨.fatalConfigError, old, []⟩ := by
      unfold main_run pipelineRun
      rw [if_pos hkey]
    refine ⟨?_, fun _ => hrun, ?_, ?_⟩
    · intro m
      rw [hrun]
      intro hc
      cases hc
    · intro hfalse
      rw [hkey] at hfalse
      cases hfalse
    · intro hfalse
      rw [hkey] at hfalse
      cases hfalse
  · by_cases hraw : extract_data SYMBOLS api = []
    · have hrun : main_run apiKey api old = ⟨.nothingFetched, old, SYMBOLS⟩ := by
        unfold main_run pipelineRun
        rw [if_neg hkey]
        simp only [hraw, if_pos]
      refine ⟨?_, ?_, fun _ _ => hrun, ?_⟩
      · intro m
        rw [hrun]
        intro hc
        cases hc
      · intro htrue
        exact absurd htrue hkey
      · intro _ hne
        exact absurd hraw hne
    · rcases transformList_ok_of_dates hdates with ⟨prs, hprs⟩
      have htd : transform_data (extract_data SYMBOLS api) = .ok prs := by
        unfold transform_data
        rw [if_neg hraw]
        exact hprs
      have hrun : main_run apiKey api old =
          ⟨.artifactWritten, some (feature_engineer prs), SYMBOLS⟩ := by
        unfold main_run pipelineRun
        rw [if_neg hkey]
        simp only [hraw, if_neg, if_false]
        rw [htd]
      refine ⟨?_, ?_, ?_, fun _ _ => ⟨prs, htd, hrun⟩⟩
      · intro m
        rw [hrun]
        intro hc
        cases hc
      · intro htrue
        exact absurd htrue hkey
      · intro _ hemp
        exact absurd hemp hraw

/-- C6 witness: a run with a present credential whose every call returns the
quota note ends in the quiet nothing-fetched state with the artifact kept. -/
theorem C6_run_trichotomy_witness :
    (∀ r ∈ extract_data SYMBOLS (fun _ => .note "limit"), (parseDate r.date).isSome) ∧
    apiKeyFalsy (some "key") = false ∧
    extract_data SYMBOLS (fun _ => .note "limit") = [] ∧
    main_run (some "key") (fun _ => .note "limit") none =
      ⟨.nothingFetched, none, SYMBOLS⟩ := by
  have hd : ∀ r ∈ extract_data SYMBOLS (fun _ => .note "limit"), (parseDate r.date).isSome := by
    intro r hr
    cases hr
  exact ⟨hd, by decide, by rfl,
    (C6_run_trichotomy (some "key") (fun _ => .note "limit") none hd).2.2.1 (by decide) (by rfl)⟩

/-- C5: a per-symbol call failure is caught and isolated. The rows of any
symbol other than the failing one are identical between the failing run and
the failure-free run; concretely, the four-symbol run whose second symbol
throws a network error still writes an artifact holding exactly the rows of
symbols one, three and four. -/
theorem C5_fault_isolation :
    (∀ (symbols : List String) (api1 api2 : String → ApiResult) (f s : String)
        (p1 p2 : List PriceRow),
      (∀ x, x ≠ f → api1 x = api2 x) → s ≠ f →
      transform_data (extract_data symbols api1) = .ok p1 →
      transform_data (extract_data symbols api2) = .ok p2 →
      featureRowsOf p1 s = featureRowsOf p2 s) ∧
    (pipelineRun c5symbols (some "key") c5apiFail none).outcome = .artifactWritten ∧
    ((pipelineRun c5symbols (some "key") c5apiFail none).artifact.getD []).map
      (fun r => r.symbol) = ["S1", "S3", "S4"] := by
  refine ⟨?_, ?_, ?_⟩
  · intro symbols api1 api2 f s p1 p2 hagree hsf h1 h2
    rw [featureRowsOf_from_raw s h1, featureRowsOf_from_raw s h2,
      extract_filter_congr symbols s (hagree s hsf)]
  · decide
  · decide

/-- C5 witness: the isolation statement applied to the concrete four-symbol
scenario, comparing symbol one's rows across the two runs. -/
theorem C5_fault_isolation_witness :
    (∀ x, x ≠ "S2" → c5apiOk x = c5apiFail x) ∧
    ("S1" : String) ≠ "S2" ∧
    transform_data (extract_data c5symbols c5apiOk) =
      .ok [c5price "S1", c5price "S2", c5price "S3", c5price "S4"] ∧
    transform_data (extract_data c5symbols c5apiFail) =
      .ok [c5price "S1", c5price "S3", c5price "S4"] ∧
    featureRowsOf [c5price "S1", c5price "S2", c5price "S3", c5price "S4"] "S1" =
      featureRowsOf [c5price "S1", c5price "S3", c5price "S4"] "S1" := by
  have hagree : ∀ x, x ≠ "S2" → c5apiOk x = c5apiFail x := by
    intro x hx
    unfold c5apiOk c5apiFail
    rw [if_neg hx]
  have h1 : transform_data (extract_data c5symbols c5apiOk) =
      .ok [c5price "S1", c5price "S2", c5price "S3", c5price "S4"] := by rfl
  have h2 : transform_data (extract_data c5symbols c5apiFail) =
      .ok [c5price "S1", c5price "S3", c5price "S4"] := by rfl
  exact ⟨hagree, by decide, h1, h2,
    C5_fault_isolation.1 c5symbols c5apiOk c5apiFail "S2" "S1" _ _ hagree (by decide) h1 h2⟩

/-- Row t of a symbol's Dataset slice carries the features of group
position t computed from that symbol's own close series. -/
theorem featureRowsOf_getD (rows : List PriceRow) (s : String) (t : ℕ)
    (ht : t < (symbolRows rows s).length) :
    (featureRowsOf rows s).getD t junkFeatureRow =
      mkFeature (symbolCloses rows s) t ((symbolRows rows s).getD t junkPriceRow) := by
  rw [featureRowsOf_decomp, groupFeatureFrom_getD _ 0 _ t ht, Nat.zero_add]

/-- C2 amended: within a symbol's date-ascending series, MA50 and MA200 are
non-null exactly when the trailing 50- or 200-observation close window is
full and free of parse-faulted (null) closes, in which case they equal the
window's arithmetic mean; volatility is non-null exactly when the trailing
30 daily returns are all non-null, which additionally forces at least 31
observations, and it then equals the sample standard deviation of that
return window.  The original claim's unconditional biconditional (non-null
exactly at 50, 200 or 31 accumulated observations) fails when a null close
sits inside the window. -/
theorem C2_amended_window_nullability (rows : List PriceRow) (s : String) (t : ℕ)
    (ht : t < (symbolRows rows s).length) :
    (((featureRowsOf rows s).getD t junkFeatureRow).MA50.isSome ↔
      (50 ≤ t + 1 ∧ ∀ x ∈ windowAt (symbolCloses rows s) 50 t, x.isSome)) ∧
    (∀ m, ((featureRowsOf rows s).getD t junkFeatureRow).MA50 = some m →
      ∃ vs, allSome (windowAt (symbolCloses rows s) 50 t) = some vs ∧
        vs.length = 50 ∧ m = vs.sum / (50 : ℚ)) ∧
    (((featureRowsOf rows s).getD t junkFeatureRow).MA200.isSome ↔
      (200 ≤ t + 1 ∧ ∀ x ∈ windowAt (symbolCloses rows s) 200 t, x.isSome)) ∧
    (∀ m, ((featureRowsOf rows s).getD t junkFeatureRow).MA200 = some m →
      ∃ vs, allSome (windowAt (symbolCloses rows s) 200 t) = some vs ∧
        vs.length = 200 ∧ m = vs.sum / (200 : ℚ)) ∧
    (((featureRowsOf rows s).getD t junkFeatureRow).volatility.isSome ↔
      (30 ≤ t + 1 ∧ ∀ x ∈ windowAt (returnsOf (symbolCloses rows s)) 30 t, x.isSome)) ∧
    (((featureRowsOf rows s).getD t junkFeatureRow).volatility.isSome → 30 ≤ t) ∧
    (∀ v, ((featureRowsOf rows s).getD t junkFeatureRow).volatility = some v →
      ∃ vs, allSome (windowAt (returnsOf (symbolCloses rows s)) 30 t) = some vs ∧
        vs.length = 30 ∧ v = Real.sqrt ((sampleVariance vs : ℚ) : ℝ)) := by
  have hglen : t < (symbolCloses rows s).length := by
    unfold symbolCloses
    rw [List.length_map]
    exact ht
  have hrlen : t < (returnsOf (symbolCloses rows s)).length := by
    unfold returnsOf
    rw [List.length_map, List.length_range]
    exact hglen
  rw [featureRowsOf_getD rows s t ht]
  refine ⟨rollingMean_isSome_iff 50 _ t, ?_, rollingMean_isSome_iff 200 _ t, ?_,
    rollingStd_isSome_iff 30 _ t, ?_, ?_⟩
  · intro m hm
    rcases rollingMean_eq_some hm with ⟨hw, vs, hvs, hval⟩
    exact ⟨vs, hvs, by rw [allSome_length hvs, windowAt_length hglen hw], hval⟩
  · intro m hm
    rcases rollingMean_eq_some hm with ⟨hw, vs, hvs, hval⟩
    exact ⟨vs, hvs, by rw [allSome_length hvs, windowAt_length hglen hw], hval⟩
  · intro hs
    exact rollingStd_returns_lower hglen hs
  · intro v hv
    rcases rollingStd_eq_some hv with ⟨hw, vs, hvs, hval⟩
    exact ⟨vs, hvs, by rw [allSome_length hvs, windowAt_length hrlen hw], hval⟩

/-- C2 counterexample: at the fiftieth observation of the symbol, fifty
observations have accumulated, yet MA50 is null because the parse-faulted
first close sits inside the trailing window — refuting the claimed
biconditional that MA50 is non-null whenever at least fifty observations
precede or include the current one. -/
theorem C2_counterexample :
    (symbolRows c2rows "X").length = 50 ∧
    ((featureRowsOf c2rows "X").getD 49 junkFeatureRow).MA50 = none := by
  constructor
  · decide
  · decide

/-- C2 witness: the amended theorem at the first observation of a one-row
group, where every window is unfilled and all three features are null. -/
theorem C2_window_witness :
    (0 < (symbolRows [⟨"X", ⟨2024, 1, 2⟩, none, none, none, some 1, none⟩] "X").length) ∧
    ¬ ((featureRowsOf [⟨"X", ⟨2024, 1, 2⟩, none, none, none, some 1, none⟩] "X").getD 0
        junkFeatureRow).MA50.isSome := by
  refine ⟨by decide, ?_⟩
  have h := (C2_amended_window_nullability
    [⟨"X", ⟨2024, 1, 2⟩, none, none, none, some 1, none⟩] "X" 0 (by decide)).1
  intro hs
  rcases (h.mp hs) with ⟨hw, _⟩
  omega

/-- C3: the daily return at a symbol's position t is the relative change of
its own close series, null at the symbol's earliest observation; on the
five-day close series 100, 102, 99, 105, 101 the returns are null, 1/50,
-1/34, 2/33, -4/105, the moving averages stay null, and the cumulative
product of one plus the returns, ignoring the leading null, yields a
fifth-day cumulative return of exactly 1/100. -/
theorem C3_daily_return_series :
    (∀ (rows : List PriceRow) (s : String) (t : ℕ), ∀ _ : t < (symbolRows rows s).length,
      (t = 0 → ((featureRowsOf rows s).getD t junkFeatureRow).daily_return = none) ∧
      (∀ c p, 1 ≤ t →
        (symbolCloses rows s).getD t none = some c →
        (symbolCloses rows s).getD (t - 1) none = some p →
        ((featureRowsOf rows s).getD t junkFeatureRow).daily_return = some ((c - p) / p))) ∧
    ((feature_engineer c3rows).map (fun r => r.daily_return) =
      [none, some (1/50), some (-1/34), some (2/33), some (-4/105)]) ∧
    ((feature_engineer c3rows).map (fun r => r.MA50) = [none, none, none, none, none]) ∧
    ((feature_engineer c3rows).map (fun r => r.MA200) = [none, none, none, none, none]) ∧
    ((((feature_engineer c3rows).map (fun r => r.daily_return)).filterMap id).foldl
        (fun a r => a * (1 + r)) 1 - 1 = 1 / 100) := by
  have hmap : (feature_engineer c3rows).map (fun r => r.daily_return) =
      [none, some (1/50), some (-1/34), some (2/33), some (-4/105)] := by
    simp [feature_engineer, c3rows, sortRows, insertionSort, insertLe, rowLe, dateLe,
      featureizeAux, mkFeature, groupCloses, dailyReturn]
    norm_num
  refine ⟨?_, hmap, by decide, by decide, ?_⟩
  · intro rows s t ht
    rw [featureRowsOf_getD rows s t ht]
    constructor
    · intro h0
      subst h0
      show dailyReturn (symbolCloses rows s) 0 = none
      exact dailyReturn_zero _
    · intro c p h1 hc hp
      show dailyReturn (symbolCloses rows s) t = some ((c - p) / p)
      unfold dailyReturn
      rw [if_neg (by omega), hc, hp]
  · rw [hmap]
    norm_num [List.filterMap]

/-- C3 witness: the universal daily-return statement applied to the concrete
five-day fixture at position one, where the return is 1/50. -/
theorem C3_daily_return_witness :
    (1 < (symbolRows c3rows "X").length) ∧
    (symbolCloses c3rows "X").getD 1 none = some 102 ∧
    (symbolCloses c3rows "X").getD 0 none = some 100 ∧
    ((featureRowsOf c3rows "X").getD 1 junkFeatureRow).daily_return =
      some (((102 : ℚ) - 100) / 100) := by
  refine ⟨by decide, by decide, by decide, ?_⟩
  exact ((C3_daily_return_series.1 c3rows "X" 1 (by decide)).2 102 100 (by omega)
    (by decide) (by decide))
